import Mathlib

set_option maxHeartbeats 1000000

/-!
Verification development for the micro:bit log filesystem (`MicroBitLog`), an
append-only, text-oriented log built on raw flash storage.

The repository ships the header `src/inc/MicroBitLog.h` (type declarations and
the inline `JournalEntry` code); the implementation file `MicroBitLog.cpp` is
not part of the source tree, so the behavioural definitions below are modelled
from the specification (`spec.md`), faithful to its words, while the data-model
definitions (`JournalEntry`, `MicroBitLogMetaData`, the version tag and entry
size constants) are translated directly from the header.

Bytes read from flash are modelled as natural numbers below 256 (the target
platform treats `char` as unsigned).
-/

/-- The filesystem version tag from src/inc/MicroBitLog.h; the header requires it
to be exactly 18 characters, including the trailing newline. -/
def MICROBIT_LOG_VERSION : String := "UBIT_LOG_FS_V_001\n"

/-- Size in bytes of the hex length field of a journal entry, from
src/inc/MicroBitLog.h. -/
def MICROBIT_LOG_JOURNAL_ENTRY_SIZE : Nat := 8

/-- A journal entry as declared in src/inc/MicroBitLog.h: an 8-byte hex length
field (`char length[MICROBIT_LOG_JOURNAL_ENTRY_SIZE]`) and a terminator byte
(`char null`). The field `len8` records the fixed size of the length field. -/
structure JournalEntry where
  length : List Nat
  null : Nat
  len8 : length.length = MICROBIT_LOG_JOURNAL_ENTRY_SIZE

/-- The default constructor `JournalEntry()`: the length field holds the ASCII
text "00000000" (eight 0x30 bytes) and the terminator is 0. -/
def JournalEntry.default : JournalEntry := ⟨List.replicate 8 0x30, 0, by decide⟩

/-- `JournalEntry::clear()`: memset the length field to 0x00 (the terminator is
left as it is). -/
def JournalEntry.clear (e : JournalEntry) : JournalEntry :=
  ⟨List.replicate 8 0, e.null, by decide⟩

/-- `JournalEntry::containsOnly(value)`: true when every one of the 8 bytes of
the length field equals `value`; the loop indexes only
`length[0] .. length[MICROBIT_LOG_JOURNAL_ENTRY_SIZE-1]`, never the terminator. -/
def JournalEntry.containsOnly (e : JournalEntry) (value : Nat) : Bool :=
  (List.range MICROBIT_LOG_JOURNAL_ENTRY_SIZE).all fun i => e.length.getD i 0 == value

/-- The raw bytes a journal entry occupies in a journal page: the 8 length bytes
followed by the terminator byte. -/
def JournalEntry.toBytes (e : JournalEntry) : List Nat :=
  e.length ++ [e.null]

/-- Modelled from the spec: the ASCII code of a single hexadecimal digit
(0-9 then A-F), used by the missing MicroBitLog.cpp to render length values. -/
def hexDigit (n : Nat) : Nat := if n < 10 then 48 + n else 55 + n

/-- Modelled from the spec: the 8-hex-digit ASCII rendering of a 32-bit length
value, most significant digit first (the serialization done by the missing
MicroBitLog.cpp when a journal slot is written). -/
def toHex8 (n : Nat) : List Nat :=
  (List.range 8).map fun i => hexDigit (n / 16 ^ (7 - i) % 16)

/-- A byte that is an ASCII hexadecimal digit: 0-9 or A-F. -/
def isHexByte (b : Nat) : Bool := (48 ≤ b && b ≤ 57) || (65 ≤ b && b ≤ 70)

/-- Modelled from the spec: the journal entry recording a committed data length
as an 8-hex-digit ASCII value plus the terminator. -/
def JournalEntry.ofLength (n : Nat) : JournalEntry :=
  ⟨toHex8 n, 0, by simp [toHex8, MICROBIT_LOG_JOURNAL_ENTRY_SIZE]⟩

/-- A journal page as documented by the layout comment of src/inc/MicroBitLog.h:
a 0x00 init region, the slot bytes, then a 0xFF init region. -/
def journalPage (a : Nat) (e : JournalEntry) (b : Nat) : List Nat :=
  List.replicate a 0x00 ++ e.toBytes ++ List.replicate b 0xFF

/-- Modelled from the spec: the logical states a journal slot can be in after an
uncontrolled reset - never written (its init region still holds the unwritten
sentinel), committed with a length value, or torn (its sentinel regions do not
match the expected pattern exactly). -/
inductive Slot where
  | unwritten
  | committed (n : Nat)
  | torn
deriving DecidableEq

/-- Modelled from the spec: the replay scan. Slots are visited in physical
(page/offset) order; a torn slot and everything after it is ignored, committed
values accumulate (the highest committed, non-torn value wins), unwritten slots
are skipped. -/
def replayAux (acc : Nat) : List Slot → Nat
  | [] => acc
  | Slot.torn :: _ => acc
  | Slot.unwritten :: rest => replayAux acc rest
  | Slot.committed n :: rest => replayAux (Nat.max acc n) rest

/-- Modelled from the spec: `JournalManager.replay() -> length`, the recovered
data length after an uncontrolled reset. -/
def replay (slots : List Slot) : Nat := replayAux 0 slots

/-- Modelled from the spec: `JournalManager.append(newLength)` activates the
next unused slot - the first slot still in the unwritten state - and writes the
new length into it; it never rewrites a previously activated slot. Returns
`none` when every slot is exhausted (the unsupported-overflow condition). -/
def journalAppend : List Slot → Nat → Option (List Slot)
  | [], _ => none
  | Slot.unwritten :: rest, n => some (Slot.committed n :: rest)
  | s :: rest, n => (journalAppend rest n).map fun r => s :: r

/-- The committed slot values of a journal, in physical (page/offset) order. -/
def committedVals : List Slot → List Nat
  | [] => []
  | Slot.committed n :: rest => n :: committedVals rest
  | _ :: rest => committedVals rest

/-- Modelled from the spec: the error taxonomy of section 7 (restricted to the
statuses the append path can produce). -/
inductive LogStatus where
  | ok
  | alreadyOpen
  | noRowOpen
  | outOfSpace
  | journalExhausted
deriving DecidableEq

/-- Modelled from the spec: the state of the MicroBitLog engine. `rowOpen`
models the MICROBIT_LOG_STATUS_ROW_STARTED bit of the `status` word; `rowData`
is the row accumulator; `headings` the ordered, append-only heading set;
`dataStart`, `dataEnd`, `logEnd` the logical addresses of the header fields of
the same names; `journal` the abstract slot view of the journal pages. -/
structure MicroBitLog where
  rowOpen : Bool
  rowData : List (String × String)
  headings : List String
  headingsChanged : Bool
  dataStart : Nat
  dataEnd : Nat
  logEnd : Nat
  journal : List Slot
deriving DecidableEq

/-- Modelled from the spec: `beginRow()` fails with AlreadyOpen if a row is
currently open; otherwise allocates a fresh empty key/value set. -/
def MicroBitLog.beginRow (s : MicroBitLog) : LogStatus × MicroBitLog :=
  if s.rowOpen then (LogStatus.alreadyOpen, s)
  else (LogStatus.ok, { s with rowOpen := true, rowData := [] })

/-- Modelled from the spec: append/overwrite a key/value pair in the open row. -/
def upsert : List (String × String) → String → String → List (String × String)
  | [], k, v => [(k, v)]
  | p :: rest, k, v => if p.1 = k then (k, v) :: rest else p :: upsert rest k v

/-- Modelled from the spec: `logData(key, value)` appends/overwrites the pair in
the open row; fails with NoRowOpen if called outside a begin/end bracket. -/
def MicroBitLog.logData (s : MicroBitLog) (k v : String) : LogStatus × MicroBitLog :=
  if s.rowOpen then (LogStatus.ok, { s with rowData := upsert s.rowData k v })
  else (LogStatus.noRowOpen, s)

/-- Modelled from the spec: `addHeading(key, value)` is idempotent - if the key
already exists in the heading set it has no effect; otherwise the key is
appended at the end (order of first appearance) and `headingsChanged` is set. -/
def MicroBitLog.addHeading (s : MicroBitLog) (k v : String) : MicroBitLog :=
  if k ∈ s.headings then s
  else { s with headings := s.headings ++ [k], headingsChanged := true }

/-- Modelled from the spec: `HeadingRegistry.reconcile(row)` adds every key of
the row not already present to the heading set, in order of first appearance. -/
def reconcile : MicroBitLog → List (String × String) → MicroBitLog
  | s, [] => s
  | s, p :: rest => reconcile (s.addHeading p.1 p.2) rest

/-- The value stored in a row under a key, or the empty string when absent. -/
def rowLookup (row : List (String × String)) (k : String) : String :=
  match row.find? fun p => p.1 == k with
  | some p => p.2
  | none => ""

/-- Modelled from the spec: serialize a row into the engine's line format -
column values in heading order, CSV-style separators, terminated by a newline. -/
def serializeRow (headings : List String) (row : List (String × String)) : String :=
  String.intercalate "," (headings.map fun k => rowLookup row k) ++ "\n"

/-- Modelled from the spec: the shared tail of the append path. Appending
`bytes` bytes fails with OutOfSpace when `dataEnd + bytes > logEnd`, leaving the
state untouched; otherwise the bytes are written at `dataEnd` and the journal
records the new data length. Only after the journal append succeeds does
`dataEnd` advance (the commit point). -/
def MicroBitLog.appendBytes (s : MicroBitLog) (bytes : Nat) : LogStatus × MicroBitLog :=
  if s.dataEnd + bytes > s.logEnd then (LogStatus.outOfSpace, s)
  else
    match journalAppend s.journal (s.dataEnd + bytes - s.dataStart) with
    | none => (LogStatus.journalExhausted, s)
    | some j => (LogStatus.ok, { s with dataEnd := s.dataEnd + bytes, journal := j })

/-- Modelled from the spec: `LogAppender.commit(row)` reconciles the heading
set first (readers parse rows using the heading set as column order), then
serializes the row and appends its bytes. -/
def MicroBitLog.commit (s : MicroBitLog) (row : List (String × String)) : LogStatus × MicroBitLog :=
  let s1 := reconcile s row
  MicroBitLog.appendBytes s1 (serializeRow s1.headings row).length

/-- Modelled from the spec: `endRow()` fails with NoRowOpen when no row is open;
otherwise hands the completed row to commit, then clears the accumulator and
the open-row status flag regardless of the commit outcome. -/
def MicroBitLog.endRow (s : MicroBitLog) : LogStatus × MicroBitLog :=
  if s.rowOpen then
    let r := MicroBitLog.commit s s.rowData
    (r.1, { r.2 with rowOpen := false, rowData := [] })
  else (LogStatus.noRowOpen, s)

/-- Modelled from the spec: `logString(text)` bypasses row/heading logic
entirely, appending the text as a raw line (text plus line terminator); still
bounded by `logEnd` and still advances the journal. -/
def MicroBitLog.logString (s : MicroBitLog) (text : String) : LogStatus × MicroBitLog :=
  MicroBitLog.appendBytes s (text.length + 1)

/-- Modelled from the spec: `format()` erases the journal and data regions and
resets the engine - no open row, empty heading set, data length zero, every
journal slot back to the unwritten state. -/
def MicroBitLog.format (s : MicroBitLog) : MicroBitLog :=
  { s with rowOpen := false, rowData := [], headings := [], headingsChanged := false,
           dataEnd := s.dataStart,
           journal := List.replicate s.journal.length Slot.unwritten }

/-- A freshly formatted log over `slots` journal slots, with the data region
spanning logical addresses `ds` to `le`. -/
def freshLog (ds le slots : Nat) : MicroBitLog :=
  { rowOpen := false, rowData := [], headings := [], headingsChanged := false,
    dataStart := ds, dataEnd := ds, logEnd := le,
    journal := List.replicate slots Slot.unwritten }

/-- A concrete state with an open row holding one key/value pair, used to
evaluate the theorems below on explicit inputs. -/
def sampleOpen : MicroBitLog :=
  { freshLog 0 100 2 with rowOpen := true, rowData := [("x", "1")] }

/-- Modelled from the spec: an uncontrolled reset followed by `init()` - RAM
state (the open row) is lost, and the data-end pointer is re-established from
the journal by replay. -/
def MicroBitLog.reset (s : MicroBitLog) : MicroBitLog :=
  { s with rowOpen := false, rowData := [],
           dataEnd := s.dataStart + replay s.journal }

/-- The metadata record as declared in src/inc/MicroBitLog.h: an 18-byte version
tag, an 11-byte ASCII-hex end address and an 11-byte ASCII-hex data start
address. -/
structure MicroBitLogMetaData where
  version : String
  logEnd : String
  dataStart : String
deriving DecidableEq

/-- Modelled from the spec: `MetadataCodec.load` verifies the version tag
byte-for-byte; any mismatch (wrong tag, erased flash, foreign data) yields
NotFound, encoded here as `none`. -/
def loadMeta (m : MicroBitLogMetaData) : Option MicroBitLogMetaData :=
  if m.version = MICROBIT_LOG_VERSION then some m else none

/-- Modelled from the spec: `init()` attempts to load the metadata; on NotFound
it silently reformats, otherwise it resumes by journal replay. It returns no
error to the caller (the header declares `void init()`). -/
def MicroBitLog.init (m : MicroBitLogMetaData) (s : MicroBitLog) : MicroBitLog :=
  match loadMeta m with
  | none => MicroBitLog.format s
  | some _ => MicroBitLog.reset s

/-- A public-API command of the engine (format excluded: the claims quantify
over row/append sequences within one life of the filesystem). -/
inductive Cmd where
  | beginRow
  | logData (k v : String)
  | endRow
  | logString (text : String)

/-- The state after executing one command (statuses discarded). -/
def step (s : MicroBitLog) : Cmd → MicroBitLog
  | Cmd.beginRow => (MicroBitLog.beginRow s).2
  | Cmd.logData k v => (MicroBitLog.logData s k v).2
  | Cmd.endRow => (MicroBitLog.endRow s).2
  | Cmd.logString t => (MicroBitLog.logString s t).2

/-- The state after executing a sequence of commands. -/
def run : MicroBitLog → List Cmd → MicroBitLog
  | s, [] => s
  | s, c :: cs => run (step s c) cs

/-- The journal invariant: the slots are a block of committed values followed by
unwritten slots (no torn slot), the committed values are non-decreasing in
physical order, and their running maximum is `len`. -/
def JInv (slots : List Slot) (len : Nat) : Prop :=
  ∃ vs k, slots = vs.map Slot.committed ++ List.replicate k Slot.unwritten
    ∧ List.Pairwise (fun a b => a ≤ b) vs
    ∧ vs.foldl Nat.max 0 = len

/-- The engine invariant: the journal invariant holds for the committed data
length, and the data region is well-founded. -/
def LogInv (s : MicroBitLog) : Prop :=
  JInv s.journal (s.dataEnd - s.dataStart) ∧ s.dataStart ≤ s.dataEnd

/-! ### Journal lemmas -/

theorem natZeroMax (a : Nat) : Nat.max 0 a = a := by simp [Nat.max_def]

theorem natMaxEqRight (a b : Nat) (h : a ≤ b) : Nat.max a b = b := by
  simp [Nat.max_def, h]

theorem natMaxAssoc (a b c : Nat) : Nat.max (Nat.max a b) c = Nat.max a (Nat.max b c) :=
  Nat.max_assoc a b c

theorem replayAux_eq_max (l : List Slot) : ∀ a, replayAux a l = Nat.max a (replay l) := by
  induction l with
  | nil => intro a; simp [replay, replayAux]
  | cons s rest ih =>
    intro a
    cases s with
    | unwritten =>
      simp only [replay, replayAux]
      rw [ih a, ih 0, natZeroMax]
    | committed n =>
      simp only [replay, replayAux]
      rw [ih (Nat.max a n), ih (Nat.max 0 n), natZeroMax, natMaxAssoc]
    | torn => simp [replay, replayAux]

theorem replay_replicate_unwritten (k : Nat) :
    replay (List.replicate k Slot.unwritten) = 0 := by
  induction k with
  | zero => rfl
  | succ k ih => simpa [replay, replayAux, List.replicate_succ] using ih

theorem foldl_max_eq (l : List Nat) :
    ∀ a, l.foldl Nat.max a = Nat.max a (l.foldl Nat.max 0) := by
  induction l with
  | nil => intro a; simp
  | cons x t ih =>
    intro a
    simp only [List.foldl_cons]
    rw [ih (Nat.max a x), ih (Nat.max 0 x), natZeroMax, natMaxAssoc]

theorem replay_wf (vs : List Nat) (k : Nat) :
    replay (vs.map Slot.committed ++ List.replicate k Slot.unwritten)
      = vs.foldl Nat.max 0 := by
  induction vs with
  | nil => simpa using replay_replicate_unwritten k
  | cons v t ih =>
    simp only [List.map_cons, List.cons_append, replay, replayAux]
    rw [replayAux_eq_max]
    show Nat.max (Nat.max 0 v) (replay (t.map Slot.committed ++ List.replicate k Slot.unwritten)) = _
    rw [ih, List.foldl_cons, foldl_max_eq t (Nat.max 0 v)]

theorem replayAux_torn (vs : List Nat) (rest : List Slot) :
    ∀ a, replayAux a (vs.map Slot.committed ++ Slot.torn :: rest)
      = replayAux a (vs.map Slot.committed) := by
  induction vs with
  | nil => intro a; simp [replayAux]
  | cons v t ih => intro a; simp only [List.map_cons, List.cons_append, replayAux]; exact ih _

theorem journalAppend_cons_committed (v n : Nat) (rest : List Slot) :
    journalAppend (Slot.committed v :: rest) n
      = (journalAppend rest n).map fun r => Slot.committed v :: r := rfl

theorem journalAppend_map_committed (vs : List Nat) (l : List Slot) (n : Nat) :
    journalAppend (vs.map Slot.committed ++ l) n
      = (journalAppend l n).map fun r => vs.map Slot.committed ++ r := by
  induction vs with
  | nil => cases h : journalAppend l n <;> simp [h]
  | cons v t ih =>
    simp only [List.map_cons, List.cons_append, journalAppend_cons_committed, ih]
    cases h : journalAppend l n <;> simp [h]

theorem journalAppend_replicate_succ (k n : Nat) :
    journalAppend (List.replicate (k + 1) Slot.unwritten) n
      = some (Slot.committed n :: List.replicate k Slot.unwritten) := by
  simp [List.replicate_succ, journalAppend]

theorem committedVals_wf (vs : List Nat) (k : Nat) :
    committedVals (vs.map Slot.committed ++ List.replicate k Slot.unwritten) = vs := by
  induction vs with
  | nil =>
    induction k with
    | zero => rfl
    | succ k ih => simpa [committedVals, List.replicate_succ] using ih
  | cons v t ih => simp [committedVals, ih]

theorem le_foldl_max (l : List Nat) (v : Nat) (hv : v ∈ l) : v ≤ l.foldl Nat.max 0 := by
  induction l with
  | nil => cases hv
  | cons x t ih =>
    rw [List.foldl_cons, foldl_max_eq]
    rcases List.mem_cons.mp hv with rfl | h
    · exact le_trans (Nat.le_max_right 0 v) (Nat.le_max_left _ _)
    · exact le_trans (ih h) (Nat.le_max_right _ _)

theorem pairwise_append_single (vs : List Nat) (n : Nat)
    (hp : List.Pairwise (fun a b => a ≤ b) vs) (hle : ∀ v ∈ vs, v ≤ n) :
    List.Pairwise (fun a b => a ≤ b) (vs ++ [n]) := by
  refine List.pairwise_append.mpr ⟨hp, List.pairwise_singleton _ _, ?_⟩
  intro a ha b hb
  rw [List.mem_singleton] at hb
  subst hb
  exact hle a ha

/-! ### Field-preservation and invariant lemmas -/

theorem addHeading_core_fields (s : MicroBitLog) (k v : String) :
    (s.addHeading k v).journal = s.journal ∧ (s.addHeading k v).dataStart = s.dataStart
    ∧ (s.addHeading k v).dataEnd = s.dataEnd ∧ (s.addHeading k v).logEnd = s.logEnd
    ∧ (s.addHeading k v).rowOpen = s.rowOpen ∧ (s.addHeading k v).rowData = s.rowData := by
  unfold MicroBitLog.addHeading
  split <;> simp

theorem reconcile_core_fields (row : List (String × String)) : ∀ s : MicroBitLog,
    (reconcile s row).journal = s.journal ∧ (reconcile s row).dataStart = s.dataStart
    ∧ (reconcile s row).dataEnd = s.dataEnd ∧ (reconcile s row).logEnd = s.logEnd
    ∧ (reconcile s row).rowOpen = s.rowOpen ∧ (reconcile s row).rowData = s.rowData := by
  induction row with
  | nil => intro s; simp [reconcile]
  | cons p t ih =>
    intro s
    have h1 := addHeading_core_fields s p.1 p.2
    have h2 := ih (s.addHeading p.1 p.2)
    simp only [reconcile]
    exact ⟨h2.1.trans h1.1, h2.2.1.trans h1.2.1, h2.2.2.1.trans h1.2.2.1,
      h2.2.2.2.1.trans h1.2.2.2.1, h2.2.2.2.2.1.trans h1.2.2.2.2.1,
      h2.2.2.2.2.2.trans h1.2.2.2.2.2⟩

theorem loginv_of_fields (s t : MicroBitLog) (hj : t.journal = s.journal)
    (hds : t.dataStart = s.dataStart) (hde : t.dataEnd = s.dataEnd)
    (h : LogInv s) : LogInv t := by
  unfold LogInv at *
  rw [hj, hds, hde]
  exact h

theorem reconcile_inv (s : MicroBitLog) (row : List (String × String))
    (h : LogInv s) : LogInv (reconcile s row) :=
  loginv_of_fields s _ (reconcile_core_fields row s).1 (reconcile_core_fields row s).2.1
    (reconcile_core_fields row s).2.2.1 h

theorem appendBytes_spec (s : MicroBitLog) (bytes : Nat) (hInv : LogInv s) :
    LogInv (s.appendBytes bytes).2
    ∧ ((s.appendBytes bytes).1 = LogStatus.ok →
        (s.appendBytes bytes).2.dataEnd = s.dataEnd + bytes
        ∧ (s.appendBytes bytes).2.dataStart = s.dataStart
        ∧ replay (s.appendBytes bytes).2.journal = s.dataEnd + bytes - s.dataStart)
    ∧ ((s.appendBytes bytes).1 ≠ LogStatus.ok → (s.appendBytes bytes).2 = s)
    ∧ (s.dataEnd + bytes > s.logEnd →
        (s.appendBytes bytes).1 = LogStatus.outOfSpace ∧ (s.appendBytes bytes).2 = s)
    ∧ ((s.appendBytes bytes).2.headings = s.headings
        ∧ (s.appendBytes bytes).2.rowOpen = s.rowOpen
        ∧ (s.appendBytes bytes).2.rowData = s.rowData) := by
  obtain ⟨⟨vs, k, hshape, hpw, hmax⟩, hle⟩ := hInv
  unfold MicroBitLog.appendBytes
  by_cases hsp : s.dataEnd + bytes > s.logEnd
  · simp only [if_pos hsp]
    refine ⟨⟨⟨vs, k, hshape, hpw, hmax⟩, hle⟩, ?_, fun _ => trivial,
      fun _ => ⟨trivial, trivial⟩, trivial, trivial, trivial⟩
    intro h
    exact absurd h (by decide)
  · simp only [if_neg hsp]
    rw [hshape, journalAppend_map_committed]
    cases k with
    | zero =>
      simp only [List.replicate, journalAppend, Option.map_none']
      refine ⟨⟨⟨vs, 0, hshape, hpw, hmax⟩, hle⟩, ?_, fun _ => trivial,
        fun h => absurd h hsp, trivial, trivial, trivial⟩
      intro h
      exact absurd h (by decide)
    | succ k0 =>
      rw [journalAppend_replicate_succ]
      simp only [Option.map_some']
      have hvs_le : ∀ v ∈ vs, v ≤ s.dataEnd + bytes - s.dataStart := by
        intro v hv
        have := le_foldl_max vs v hv
        omega
      have hshape2 : List.map Slot.committed vs
            ++ Slot.committed (s.dataEnd + bytes - s.dataStart) :: List.replicate k0 Slot.unwritten
          = (vs ++ [s.dataEnd + bytes - s.dataStart]).map Slot.committed
            ++ List.replicate k0 Slot.unwritten := by
        simp
      have hpw2 : List.Pairwise (fun a b => a ≤ b) (vs ++ [s.dataEnd + bytes - s.dataStart]) :=
        pairwise_append_single vs _ hpw hvs_le
      have hmax2 : (vs ++ [s.dataEnd + bytes - s.dataStart]).foldl Nat.max 0
          = s.dataEnd + bytes - s.dataStart := by
        rw [List.foldl_append, List.foldl_cons, List.foldl_nil, hmax,
          natMaxEqRight _ _ (by omega)]
      refine ⟨⟨⟨vs ++ [s.dataEnd + bytes - s.dataStart], k0, ?_, hpw2, hmax2⟩, ?_⟩,
        fun _ => ⟨trivial, trivial, ?_⟩, fun h => absurd rfl h, fun h => absurd h hsp,
        trivial, trivial, trivial⟩
      · exact hshape2
      · show s.dataStart ≤ s.dataEnd + bytes
        omega
      · rw [hshape2, replay_wf, hmax2]

theorem appendBytes_aux_fields (s : MicroBitLog) (bytes : Nat) :
    (s.appendBytes bytes).2.headings = s.headings
    ∧ (s.appendBytes bytes).2.rowOpen = s.rowOpen
    ∧ (s.appendBytes bytes).2.rowData = s.rowData
    ∧ (s.appendBytes bytes).2.dataStart = s.dataStart
    ∧ (s.appendBytes bytes).2.logEnd = s.logEnd := by
  unfold MicroBitLog.appendBytes
  split
  · exact ⟨rfl, rfl, rfl, rfl, rfl⟩
  · split <;> exact ⟨rfl, rfl, rfl, rfl, rfl⟩

theorem commit_inv_spec (s : MicroBitLog) (row : List (String × String))
    (h : LogInv s) : LogInv (s.commit row).2 := by
  show LogInv (MicroBitLog.appendBytes (reconcile s row)
    (serializeRow (reconcile s row).headings row).length).2
  exact (appendBytes_spec (reconcile s row) _ (reconcile_inv s row h)).1

theorem step_inv (s : MicroBitLog) (c : Cmd) (h : LogInv s) : LogInv (step s c) := by
  cases c with
  | beginRow =>
    show LogInv (MicroBitLog.beginRow s).2
    unfold MicroBitLog.beginRow
    split
    · exact h
    · exact loginv_of_fields s _ rfl rfl rfl h
  | logData k v =>
    show LogInv (MicroBitLog.logData s k v).2
    unfold MicroBitLog.logData
    split
    · exact loginv_of_fields s _ rfl rfl rfl h
    · exact h
  | endRow =>
    show LogInv (MicroBitLog.endRow s).2
    unfold MicroBitLog.endRow
    split
    · exact loginv_of_fields (s.commit s.rowData).2 _ rfl rfl rfl
        (commit_inv_spec s s.rowData h)
    · exact h
  | logString t =>
    show LogInv (MicroBitLog.logString s t).2
    exact (appendBytes_spec s (t.length + 1) h).1

theorem run_inv (cmds : List Cmd) : ∀ s : MicroBitLog, LogInv s → LogInv (run s cmds) := by
  induction cmds with
  | nil => intro s h; exact h
  | cons c cs ih => intro s h; exact ih (step s c) (step_inv s c h)

theorem freshLog_inv (ds le slots : Nat) : LogInv (freshLog ds le slots) := by
  exact ⟨⟨[], slots, by simp [freshLog], List.Pairwise.nil, by simp [freshLog]⟩,
    Nat.le_refl ds⟩

/-! ### Heading lemmas -/

theorem addHeading_headings_extend (s : MicroBitLog) (k v : String) :
    ∃ t, (s.addHeading k v).headings = s.headings ++ t := by
  unfold MicroBitLog.addHeading
  split
  · exact ⟨[], by simp⟩
  · exact ⟨[k], rfl⟩

theorem addHeading_mem_self (s : MicroBitLog) (k v : String) :
    k ∈ (s.addHeading k v).headings := by
  unfold MicroBitLog.addHeading
  split
  case isTrue h => exact h
  case isFalse h => simp

theorem reconcile_headings_extend (row : List (String × String)) :
    ∀ s : MicroBitLog, ∃ t, (reconcile s row).headings = s.headings ++ t := by
  induction row with
  | nil => intro s; exact ⟨[], by simp [reconcile]⟩
  | cons p rest ih =>
    intro s
    obtain ⟨t1, h1⟩ := addHeading_headings_extend s p.1 p.2
    obtain ⟨t2, h2⟩ := ih (s.addHeading p.1 p.2)
    refine ⟨t1 ++ t2, ?_⟩
    show (reconcile (s.addHeading p.1 p.2) rest).headings = _
    rw [h2, h1, List.append_assoc]

theorem reconcile_mem_keys (row : List (String × String)) :
    ∀ s : MicroBitLog, ∀ p ∈ row, p.1 ∈ (reconcile s row).headings := by
  induction row with
  | nil => intro s p hp; cases hp
  | cons q rest ih =>
    intro s p hp
    rcases List.mem_cons.mp hp with rfl | hp2
    · obtain ⟨t, ht⟩ := reconcile_headings_extend rest (s.addHeading p.1 p.2)
      show p.1 ∈ (reconcile (s.addHeading p.1 p.2) rest).headings
      rw [ht]
      exact List.mem_append_left _ (addHeading_mem_self s p.1 p.2)
    · exact ih (s.addHeading q.1 q.2) p hp2

theorem commit_headings (s : MicroBitLog) (row : List (String × String)) :
    (s.commit row).2.headings = (reconcile s row).headings := by
  show (MicroBitLog.appendBytes (reconcile s row)
    (serializeRow (reconcile s row).headings row).length).2.headings = _
  exact (appendBytes_aux_fields _ _).1

theorem step_headings_extend (s : MicroBitLog) (c : Cmd) :
    ∃ t, (step s c).headings = s.headings ++ t := by
  cases c with
  | beginRow =>
    show ∃ t, (MicroBitLog.beginRow s).2.headings = s.headings ++ t
    unfold MicroBitLog.beginRow
    split
    · exact ⟨[], by simp⟩
    · exact ⟨[], by simp⟩
  | logData k v =>
    show ∃ t, (MicroBitLog.logData s k v).2.headings = s.headings ++ t
    unfold MicroBitLog.logData
    split
    · exact ⟨[], by simp⟩
    · exact ⟨[], by simp⟩
  | endRow =>
    show ∃ t, (MicroBitLog.endRow s).2.headings = s.headings ++ t
    unfold MicroBitLog.endRow
    split
    · obtain ⟨t, ht⟩ := reconcile_headings_extend s.rowData s
      refine ⟨t, ?_⟩
      show (s.commit s.rowData).2.headings = s.headings ++ t
      rw [commit_headings, ht]
    · exact ⟨[], by simp⟩
  | logString t =>
    show ∃ u, (MicroBitLog.logString s t).2.headings = s.headings ++ u
    exact ⟨[], by simpa using (appendBytes_aux_fields s (t.length + 1)).1⟩

theorem run_headings_extend (cmds : List Cmd) :
    ∀ s : MicroBitLog, ∃ t, (run s cmds).headings = s.headings ++ t := by
  induction cmds with
  | nil => intro s; exact ⟨[], by simp [run]⟩
  | cons c cs ih =>
    intro s
    obtain ⟨t1, h1⟩ := step_headings_extend s c
    obtain ⟨t2, h2⟩ := ih (step s c)
    refine ⟨t1 ++ t2, ?_⟩
    show (run (step s c) cs).headings = _
    rw [h2, h1, List.append_assoc]

/-! ### Operation shape lemmas -/

theorem endRow_open (s : MicroBitLog) (hro : s.rowOpen = true) :
    s.endRow = ((s.commit s.rowData).1,
      { (s.commit s.rowData).2 with rowOpen := false, rowData := [] }) := by
  simp [MicroBitLog.endRow, hro]

theorem endRow_closed (s : MicroBitLog) (hro : s.rowOpen = false) :
    s.endRow = (LogStatus.noRowOpen, s) := by
  simp [MicroBitLog.endRow, hro]

theorem commit_eq (s : MicroBitLog) (row : List (String × String)) :
    s.commit row = MicroBitLog.appendBytes (reconcile s row)
      (serializeRow (reconcile s row).headings row).length := rfl

theorem replay_of_inv (s : MicroBitLog) (hInv : LogInv s) :
    replay s.journal = s.dataEnd - s.dataStart := by
  obtain ⟨⟨vs, k, hshape, hpw, hmax⟩, hle⟩ := hInv
  rw [hshape, replay_wf, hmax]

theorem serializeRow_length_pos (headings : List String) (row : List (String × String)) :
    1 ≤ (serializeRow headings row).length := by
  unfold serializeRow
  rw [String.length_append]
  have h : ("\n" : String).length = 1 := rfl
  rw [h]
  omega

theorem journalAppend_cons_torn (n : Nat) (rest : List Slot) :
    journalAppend (Slot.torn :: rest) n
      = (journalAppend rest n).map fun r => Slot.torn :: r := rfl

/-! ### Claims -/

/-- Claim C1 (journal replay correctness): starting from a freshly formatted
log, after any sequence of public operations - in particular any sequence of
successful endRow() calls - the length recovered by journal replay equals the
committed data length, which is exactly the length committed by the last
successful commit before the reset; hence a simulated uncontrolled reset
followed by init() re-establishes the same data end. Moreover the replay scan,
which visits committed slots across all journal pages in physical order, ignores
a torn slot and everything after it. -/
theorem journal_replay_correctness :
    (∀ (ds le slots : Nat) (cmds : List Cmd),
        replay (run (freshLog ds le slots) cmds).journal
            = (run (freshLog ds le slots) cmds).dataEnd
              - (run (freshLog ds le slots) cmds).dataStart
        ∧ ((run (freshLog ds le slots) cmds).reset).dataEnd
            = (run (freshLog ds le slots) cmds).dataEnd)
    ∧ (∀ (vs : List Nat) (rest : List Slot),
        replay (vs.map Slot.committed ++ Slot.torn :: rest)
          = replay (vs.map Slot.committed)) := by
  constructor
  · intro ds le slots cmds
    have h := run_inv cmds (freshLog ds le slots) (freshLog_inv ds le slots)
    have hr := replay_of_inv _ h
    have hle := h.2
    refine ⟨hr, ?_⟩
    show (run (freshLog ds le slots) cmds).dataStart
        + replay (run (freshLog ds le slots) cmds).journal = _
    rw [hr]
    omega
  · intro vs rest
    exact replayAux_torn vs rest 0

/-- Claim C2 (journal monotonicity and append-only discipline): starting from a
freshly formatted log, after any sequence of public operations the committed
journal slot values, read in page/offset order, form a monotonically
non-decreasing sequence; and whenever journalAppend succeeds it activates
exactly the first slot still in the unwritten state - writing the new value
there and leaving every other slot, in particular every previously activated
slot, untouched. -/
theorem journal_monotonic_append_only :
    (∀ (ds le slots : Nat) (cmds : List Cmd),
        List.Pairwise (fun a b => a ≤ b)
          (committedVals (run (freshLog ds le slots) cmds).journal))
    ∧ (∀ (slots : List Slot) (n : Nat) (slots2 : List Slot),
        journalAppend slots n = some slots2 →
        ∃ i, slots.get? i = some Slot.unwritten
          ∧ (∀ j, j < i → slots.get? j ≠ some Slot.unwritten)
          ∧ slots2 = slots.set i (Slot.committed n)) := by
  constructor
  · intro ds le slots cmds
    obtain ⟨⟨vs, k, hshape, hpw, hmax⟩, hle⟩ :=
      run_inv cmds (freshLog ds le slots) (freshLog_inv ds le slots)
    rw [hshape, committedVals_wf]
    exact hpw
  · intro slots n
    induction slots with
    | nil => intro s2 h; cases h
    | cons a rest ih =>
      intro s2 h
      cases a with
      | unwritten =>
        simp only [journalAppend, Option.some_inj] at h
        refine ⟨0, rfl, fun j hj => absurd hj (Nat.not_lt_zero j), ?_⟩
        rw [← h]
        rfl
      | committed v =>
        rw [journalAppend_cons_committed] at h
        cases h2 : journalAppend rest n with
        | none => rw [h2] at h; cases h
        | some r =>
          rw [h2, Option.map_some'] at h
          obtain ⟨i, hi1, hi2, hi3⟩ := ih r h2
          refine ⟨i + 1, hi1, ?_, ?_⟩
          · intro j hj
            cases j with
            | zero => intro hc; cases hc
            | succ j0 =>
              intro hc
              exact hi2 j0 (Nat.lt_of_succ_lt_succ hj) hc
          · have hs2 : s2 = Slot.committed v :: r := by
              injection h with h3
              exact h3.symm
            rw [hs2, hi3]
            rfl
      | torn =>
        rw [journalAppend_cons_torn] at h
        cases h2 : journalAppend rest n with
        | none => rw [h2] at h; cases h
        | some r =>
          rw [h2, Option.map_some'] at h
          obtain ⟨i, hi1, hi2, hi3⟩ := ih r h2
          refine ⟨i + 1, hi1, ?_, ?_⟩
          · intro j hj
            cases j with
            | zero => intro hc; cases hc
            | succ j0 =>
              intro hc
              exact hi2 j0 (Nat.lt_of_succ_lt_succ hj) hc
          · have hs2 : s2 = Slot.torn :: r := by
              injection h with h3
              exact h3.symm
            rw [hs2, hi3]
            rfl

/-- Claim C3 (out-of-space atomicity): when an append - an endRow() commit or a
logString() - would make dataEnd plus the row's byte count exceed logEnd, the
operation fails with OutOfSpace and leaves dataEnd (the previously committed
length) unchanged; conversely every successful commit strictly increases the
recoverable data length (the journal replay value). -/
theorem out_of_space_atomicity (s : MicroBitLog) (hInv : LogInv s) :
    (∀ text : String, s.dataEnd + (text.length + 1) > s.logEnd →
        (s.logString text).1 = LogStatus.outOfSpace
        ∧ (s.logString text).2.dataEnd = s.dataEnd)
    ∧ (s.rowOpen = true →
        s.dataEnd + (serializeRow (reconcile s s.rowData).headings s.rowData).length
            > s.logEnd →
        s.endRow.1 = LogStatus.outOfSpace ∧ s.endRow.2.dataEnd = s.dataEnd)
    ∧ (∀ text : String, (s.logString text).1 = LogStatus.ok →
        replay (s.logString text).2.journal > replay s.journal)
    ∧ (s.endRow.1 = LogStatus.ok →
        replay s.endRow.2.journal > replay s.journal) := by
  refine ⟨?_, ?_, ?_, ?_⟩
  · intro text hsp
    have hD := (appendBytes_spec s (text.length + 1) hInv).2.2.2.1 hsp
    refine ⟨hD.1, ?_⟩
    show (MicroBitLog.appendBytes s (text.length + 1)).2.dataEnd = s.dataEnd
    rw [hD.2]
  · intro hro hsp
    have hf := reconcile_core_fields s.rowData s
    have hInv1 := reconcile_inv s s.rowData hInv
    have hsp1 : (reconcile s s.rowData).dataEnd
        + (serializeRow (reconcile s s.rowData).headings s.rowData).length
        > (reconcile s s.rowData).logEnd := by
      rw [hf.2.2.1, hf.2.2.2.1]
      exact hsp
    have hD := (appendBytes_spec (reconcile s s.rowData) _ hInv1).2.2.2.1 hsp1
    rw [endRow_open s hro]
    refine ⟨?_, ?_⟩
    · show (MicroBitLog.appendBytes (reconcile s s.rowData)
        (serializeRow (reconcile s s.rowData).headings s.rowData).length).1 = _
      exact hD.1
    · show (MicroBitLog.appendBytes (reconcile s s.rowData)
        (serializeRow (reconcile s s.rowData).headings s.rowData).length).2.dataEnd = _
      rw [hD.2, hf.2.2.1]
  · intro text hok
    have hB := (appendBytes_spec s (text.length + 1) hInv).2.1 hok
    have hr := replay_of_inv s hInv
    have hle := hInv.2
    show replay (MicroBitLog.appendBytes s (text.length + 1)).2.journal > _
    rw [hB.2.2, hr]
    omega
  · intro hok
    cases hro : s.rowOpen with
    | false =>
      rw [endRow_closed s hro] at hok
      cases hok
    | true =>
      rw [endRow_open s hro] at hok ⊢
      have hf := reconcile_core_fields s.rowData s
      have hInv1 := reconcile_inv s s.rowData hInv
      have hok1 : (MicroBitLog.appendBytes (reconcile s s.rowData)
          (serializeRow (reconcile s s.rowData).headings s.rowData).length).1
          = LogStatus.ok := hok
      have hB := (appendBytes_spec (reconcile s s.rowData) _ hInv1).2.1 hok1
      have hr1 := replay_of_inv _ hInv1
      have hle1 := hInv1.2
      have hpos := serializeRow_length_pos (reconcile s s.rowData).headings s.rowData
      show replay (MicroBitLog.appendBytes (reconcile s s.rowData)
          (serializeRow (reconcile s s.rowData).headings s.rowData).length).2.journal
          > replay s.journal
      rw [hB.2.2, ← hf.1, hr1]
      omega

/-- Witness for C3, at a freshly formatted 4-byte log: a 7-byte raw line does
not fit, the call reports OutOfSpace and the committed data end is unchanged. -/
theorem out_of_space_atomicity_witness :
    ((freshLog 0 4 2).logString "abcdef").1 = LogStatus.outOfSpace
    ∧ ((freshLog 0 4 2).logString "abcdef").2.dataEnd = (freshLog 0 4 2).dataEnd :=
  (out_of_space_atomicity (freshLog 0 4 2) (freshLog_inv 0 4 2)).1 "abcdef" (by decide)

/-- Claim C4 (heading-set append-only invariant): across any sequence of public
operations the heading set only ever grows by appending at the end - the old
set is a prefix of the new one, so it is monotonically non-decreasing in size
and existing entries are never reordered or removed; and when an open row is
committed by endRow(), every key of that row is present in the heading set of
the resulting state (reconciliation happens before the row's data bytes are
appended). -/
theorem heading_append_only (s : MicroBitLog) (cmds : List Cmd) :
    (∃ t, (run s cmds).headings = s.headings ++ t)
    ∧ (∀ k v : String, (k, v) ∈ s.rowData → s.rowOpen = true →
        k ∈ s.endRow.2.headings) := by
  refine ⟨run_headings_extend cmds s, ?_⟩
  intro k v hkv hro
  rw [endRow_open s hro]
  show k ∈ (s.commit s.rowData).2.headings
  rw [commit_headings]
  exact reconcile_mem_keys s.rowData s (k, v) hkv

/-- Witness for C4: committing the open row of the sample state puts its key
"x" into the heading set. -/
theorem heading_append_only_witness : "x" ∈ sampleOpen.endRow.2.headings :=
  (heading_append_only sampleOpen []).2 "x" "1" (by decide) rfl

/-- Claim C5 (nested beginRow rejection): calling beginRow() while a row is
already open fails with AlreadyOpen and leaves the whole state - in particular
the open row's accumulated key/value pairs - unchanged; only a subsequent
endRow() or format() can discard them. -/
theorem begin_row_already_open (s : MicroBitLog) (h : s.rowOpen = true) :
    s.beginRow.1 = LogStatus.alreadyOpen ∧ s.beginRow.2 = s := by
  unfold MicroBitLog.beginRow
  rw [h]
  exact ⟨rfl, rfl⟩

/-- Witness for C5 at the sample open state. -/
theorem begin_row_already_open_witness :
    sampleOpen.beginRow.1 = LogStatus.alreadyOpen
    ∧ sampleOpen.beginRow.2 = sampleOpen :=
  begin_row_already_open sampleOpen rfl

/-- Claim C6 (endRow always returns to idle): endRow() fails with NoRowOpen when
no row is open (leaving the state unchanged); in every case the resulting state
has the open-row flag cleared, and when a row was open the accumulator is
cleared as well - regardless of whether the commit succeeded or failed. -/
theorem end_row_returns_idle (s : MicroBitLog) :
    (s.rowOpen = false → s.endRow.1 = LogStatus.noRowOpen ∧ s.endRow.2 = s)
    ∧ s.endRow.2.rowOpen = false
    ∧ (s.rowOpen = true → s.endRow.2.rowData = []) := by
  refine ⟨?_, ?_, ?_⟩
  · intro h
    rw [endRow_closed s h]
    exact ⟨rfl, rfl⟩
  · cases hro : s.rowOpen with
    | false =>
      rw [endRow_closed s hro]
      exact hro
    | true =>
      rw [endRow_open s hro]
  · intro hro
    rw [endRow_open s hro]

/-- Witness for C6: ending the sample open row clears the flag and the
accumulator. -/
theorem end_row_returns_idle_witness :
    sampleOpen.endRow.2.rowOpen = false ∧ sampleOpen.endRow.2.rowData = [] :=
  ⟨(end_row_returns_idle sampleOpen).2.1, (end_row_returns_idle sampleOpen).2.2 rfl⟩

theorem isHexByte_hexDigit (m : Nat) (hm : m < 16) : isHexByte (hexDigit m) = true := by
  unfold isHexByte hexDigit
  split <;> simp <;> omega

theorem getD_forall_iff (l : List Nat) (v : Nat) :
    (∀ i, i < l.length → l.getD i 0 = v) ↔ (∀ b ∈ l, b = v) := by
  induction l with
  | nil => simp
  | cons a t ih =>
    constructor
    · intro h b hb
      rcases List.mem_cons.mp hb with rfl | hbt
      · exact h 0 (by simp)
      · exact ih.mp (fun i hi => h (i + 1) (by simp [List.length_cons]; omega)) b hbt
    · intro h i hi
      cases i with
      | zero => exact h a (List.mem_cons_self a t)
      | succ i0 =>
        have hi0 : i0 < t.length := by simp [List.length_cons] at hi; omega
        exact ih.mpr (fun b hb => h b (List.mem_cons_of_mem a hb)) i0 hi0

/-- Claim C7 (metadata validation and silent reformat): loading the metadata
record yields NotFound (none) exactly when the stored version tag differs from
the 18-character version tag (including its trailing newline); this mismatch is
handled inside init() by reformatting rather than surfacing an error to the
caller (the header declares `void init()`). -/
theorem metadata_validation (m : MicroBitLogMetaData) (prev : MicroBitLog) :
    (loadMeta m = none ↔ ¬(m.version = MICROBIT_LOG_VERSION))
    ∧ MICROBIT_LOG_VERSION.length = 18
    ∧ (¬(m.version = MICROBIT_LOG_VERSION) →
        MicroBitLog.init m prev = prev.format) := by
  refine ⟨?_, rfl, ?_⟩
  · unfold loadMeta
    split
    case isTrue h => simp [h]
    case isFalse h => simp [h]
  · intro h
    unfold MicroBitLog.init loadMeta
    rw [if_neg h]

/-- Witness for C7: a blank metadata record (erased flash) fails validation and
init() reformats. -/
theorem metadata_validation_witness :
    MicroBitLog.init ⟨"", "", ""⟩ (freshLog 0 0 0) = (freshLog 0 0 0).format :=
  (metadata_validation ⟨"", "", ""⟩ (freshLog 0 0 0)).2.2 (by decide)

/-- Claim C8 (journal slot format): a journal slot stores the committed data
length as exactly an 8-hex-digit ASCII value plus one terminator byte, so the
slot occupies 9 bytes; the length-recording entry renders as 8 ASCII hex digits
followed by the 0 terminator; and a journal page brackets the slot bytes with a
0x00 init region before and a 0xFF init region after. -/
theorem journal_slot_format (e : JournalEntry) (n a b : Nat) :
    e.toBytes.length = MICROBIT_LOG_JOURNAL_ENTRY_SIZE + 1
    ∧ MICROBIT_LOG_JOURNAL_ENTRY_SIZE + 1 = 9
    ∧ (JournalEntry.ofLength n).toBytes = toHex8 n ++ [0]
    ∧ (toHex8 n).length = 8
    ∧ (toHex8 n).all isHexByte = true
    ∧ journalPage a e b = List.replicate a 0 ++ e.toBytes ++ List.replicate b 255 := by
  refine ⟨?_, rfl, rfl, by simp [toHex8], ?_, rfl⟩
  · unfold JournalEntry.toBytes
    rw [List.length_append, e.len8]
    rfl
  · rw [List.all_eq_true]
    intro x hx
    unfold toHex8 at hx
    obtain ⟨i, hi, rfl⟩ := List.mem_map.mp hx
    exact isHexByte_hexDigit _ (Nat.mod_lt _ (by omega))

/-- Claim C9 (addHeading idempotence): if the key is already in the heading set,
addHeading has no effect at all on the state; consequently calling addHeading
twice with the same key equals calling it once. -/
theorem add_heading_idempotent (s : MicroBitLog) (k v v2 : String) :
    (k ∈ s.headings → s.addHeading k v = s)
    ∧ (s.addHeading k v).addHeading k v2 = s.addHeading k v := by
  have key : ∀ (st : MicroBitLog) (vv : String), k ∈ st.headings → st.addHeading k vv = st := by
    intro st vv h
    unfold MicroBitLog.addHeading
    rw [if_pos h]
  exact ⟨key s v, key (s.addHeading k v) v2 (addHeading_mem_self s k v)⟩

/-- Witness for C9: adding an existing heading leaves the state unchanged. -/
theorem add_heading_idempotent_witness :
    MicroBitLog.addHeading { freshLog 0 100 2 with headings := ["x"] } "x" "1"
      = { freshLog 0 100 2 with headings := ["x"] } :=
  (add_heading_idempotent { freshLog 0 100 2 with headings := ["x"] } "x" "1" "1").1
    (by decide)

/-- Claim C10 (containsOnly semantics): JournalEntry::containsOnly(v) is true
exactly when each of the 8 bytes of the length field equals v; the terminator
byte is never examined (changing it does not change the result); and the
default-constructed entry, whose length field is the ASCII text "00000000",
satisfies neither containsOnly(0x00) nor containsOnly(0xFF). -/
theorem contains_only_spec (e : JournalEntry) (v : Nat) :
    (e.containsOnly v = true ↔ ∀ b ∈ e.length, b = v)
    ∧ (∀ t : Nat, JournalEntry.containsOnly ⟨e.length, t, e.len8⟩ v = e.containsOnly v)
    ∧ JournalEntry.default.containsOnly 0 = false
    ∧ JournalEntry.default.containsOnly 255 = false := by
  refine ⟨?_, fun t => rfl, by decide, by decide⟩
  unfold JournalEntry.containsOnly
  rw [List.all_eq_true]
  constructor
  · intro h
    refine (getD_forall_iff e.length v).mp ?_
    intro i hi
    have hi8 : i < MICROBIT_LOG_JOURNAL_ENTRY_SIZE := by rw [← e.len8]; exact hi
    have hb := h i (List.mem_range.mpr hi8)
    exact beq_iff_eq.mp hb
  · intro h i hirange
    have hi : i < e.length.length := by rw [e.len8]; exact List.mem_range.mp hirange
    have hgd := (getD_forall_iff e.length v).mpr h i hi
    rw [beq_iff_eq]
    exact hgd

/-- Witness for C10: the default entry is neither all 0x00 nor all 0xFF. -/
theorem contains_only_spec_witness :
    JournalEntry.default.containsOnly 0 = false
    ∧ JournalEntry.default.containsOnly 255 = false :=
  ⟨(contains_only_spec JournalEntry.default 0).2.2.1,
    (contains_only_spec JournalEntry.default 255).2.2.2⟩

/-- Witness for C2: appending 5 to a journal whose first slot is committed
activates exactly the second (first unwritten) slot. -/
theorem journal_monotonic_append_only_witness :
    ∃ i, [Slot.committed 3, Slot.unwritten].get? i = some Slot.unwritten
      ∧ (∀ j, j < i → [Slot.committed 3, Slot.unwritten].get? j ≠ some Slot.unwritten)
      ∧ [Slot.committed 3, Slot.committed 5]
          = [Slot.committed 3, Slot.unwritten].set i (Slot.committed 5) :=
  journal_monotonic_append_only.2 [Slot.committed 3, Slot.unwritten] 5
    [Slot.committed 3, Slot.committed 5] (by decide)
